import Mathlib

/-!
Verification of the SaveSync synchronization and retention engine
(`savesync_gui.py`): a shallow embedding of its change detector, local
version manager, remote hierarchy manager, retention enforcer and
restore selector/executor, with theorems about the documented
properties of those components.
-/

namespace SaveSync

/-!
Ordering utilities.

Python compares strings lexicographically by Unicode code point, and
`sorted` / `list.sort` are stable sorts.  String comparison is modelled
by an explicit code-point lexicographic function on the character list,
and the sorts by a stable insertion sort; for a transitive, total
comparator a stable sort's output is unique, so this agrees with the
sort the program uses.
-/

/-- Code-point lexicographic strict order on character lists. -/
def charListLtb : List Char → List Char → Bool
  | [], [] => false
  | [], _ :: _ => true
  | _ :: _, [] => false
  | a :: as, b :: bs =>
    if a.toNat < b.toNat then true
    else if b.toNat < a.toNat then false
    else charListLtb as bs

/-- Python's `s1 < s2` on strings. -/
def strLtb (a b : String) : Bool := charListLtb a.data b.data

/-- Python's `s1 <= s2` on strings. -/
def strLeb (a b : String) : Bool := !(strLtb b a)

/-- Stable insertion of an element into a list (earlier elements stay first
among comparator-equal ones). -/
def insertLe {α : Type} (le : α → α → Bool) (a : α) : List α → List α
  | [] => [a]
  | b :: bs => if le a b then a :: b :: bs else b :: insertLe le a bs

/-- Stable sort by a boolean comparator; models Python's stable `sorted`. -/
def sortLe {α : Type} (le : α → α → Bool) : List α → List α
  | [] => []
  | a :: as => insertLe le a (sortLe le as)

/-- Python's `sorted(names, reverse=True)` on strings. -/
def sortDescStr (l : List String) : List String :=
  sortLe (fun a b => strLeb b a) l

theorem insertLe_perm {α : Type} (le : α → α → Bool) (a : α) (l : List α) :
    List.Perm (insertLe le a l) (a :: l) := by
  induction l with
  | nil => exact List.Perm.refl _
  | cons b bs ih =>
    simp only [insertLe]
    split
    · exact List.Perm.refl _
    · exact (ih.cons b).trans (List.Perm.swap a b bs)

theorem sortLe_perm {α : Type} (le : α → α → Bool) (l : List α) :
    List.Perm (sortLe le l) l := by
  induction l with
  | nil => exact List.Perm.refl _
  | cons a as ih => exact (insertLe_perm le a (sortLe le as)).trans (ih.cons a)

theorem mem_insertLe {α : Type} (le : α → α → Bool) (a x : α) (l : List α) :
    x ∈ insertLe le a l ↔ x = a ∨ x ∈ l := by
  rw [(insertLe_perm le a l).mem_iff]
  simp

theorem insertLe_pairwise {α : Type} (le : α → α → Bool)
    (htrans : ∀ a b c, le a b = true → le b c = true → le a c = true)
    (htotal : ∀ a b, le a b = true ∨ le b a = true)
    (a : α) (l : List α) (h : l.Pairwise (fun x y => le x y = true)) :
    (insertLe le a l).Pairwise (fun x y => le x y = true) := by
  induction l with
  | nil => simp [insertLe]
  | cons b bs ih =>
    rw [List.pairwise_cons] at h
    obtain ⟨hb, hbs⟩ := h
    simp only [insertLe]
    split
    · next hab =>
      refine List.Pairwise.cons ?_ (List.Pairwise.cons hb hbs)
      intro x hx
      rcases List.mem_cons.mp hx with rfl | hx
      · exact hab
      · exact htrans a b x hab (hb x hx)
    · next hab =>
      refine List.Pairwise.cons ?_ (ih hbs)
      intro x hx
      rcases (mem_insertLe le a x bs).mp hx with rfl | hx
      · rcases htotal x b with h1 | h1
        · exact absurd h1 hab
        · exact h1
      · exact hb x hx

theorem sortLe_pairwise {α : Type} (le : α → α → Bool)
    (htrans : ∀ a b c, le a b = true → le b c = true → le a c = true)
    (htotal : ∀ a b, le a b = true ∨ le b a = true) (l : List α) :
    (sortLe le l).Pairwise (fun x y => le x y = true) := by
  induction l with
  | nil => simp [sortLe]
  | cons a as ih => exact insertLe_pairwise le htrans htotal a _ ih

theorem charTonat_inj {a b : Char} (h : a.toNat = b.toNat) : a = b :=
  Char.eq_of_val_eq (UInt32.eq_of_val_eq (Fin.ext h))

theorem charListLtb_cons (a b : Char) (as bs : List Char) :
    charListLtb (a :: as) (b :: bs) = true ↔
      (a.toNat < b.toNat ∨ (a.toNat = b.toNat ∧ charListLtb as bs = true)) := by
  simp only [charListLtb]
  by_cases h1 : a.toNat < b.toNat
  · simp [h1]
  · by_cases h2 : b.toNat < a.toNat
    · have hne : ¬a.toNat = b.toNat := by omega
      simp [h1, h2, hne]
    · have heq : a.toNat = b.toNat := by omega
      simp [h1, h2, heq]

theorem charListLtb_trans (l1 : List Char) : ∀ (l2 l3 : List Char),
    charListLtb l1 l2 = true → charListLtb l2 l3 = true →
    charListLtb l1 l3 = true := by
  induction l1 with
  | nil =>
    intro l2 l3 h1 h2
    cases l2 with
    | nil => simp [charListLtb] at h1
    | cons b bs =>
      cases l3 with
      | nil => simp [charListLtb] at h2
      | cons c cs => simp [charListLtb]
  | cons a as ih =>
    intro l2 l3 h1 h2
    cases l2 with
    | nil => simp [charListLtb] at h1
    | cons b bs =>
      cases l3 with
      | nil => simp [charListLtb] at h2
      | cons c cs =>
        rw [charListLtb_cons] at h1 h2 ⊢
        rcases h1 with h1 | ⟨h1e, h1r⟩
        · rcases h2 with h2 | ⟨h2e, _⟩
          · exact Or.inl (by omega)
          · exact Or.inl (by omega)
        · rcases h2 with h2 | ⟨h2e, h2r⟩
          · exact Or.inl (by omega)
          · exact Or.inr ⟨by omega, ih bs cs h1r h2r⟩

theorem charListLtb_asymm (l1 : List Char) : ∀ (l2 : List Char),
    charListLtb l1 l2 = true → charListLtb l2 l1 = false := by
  induction l1 with
  | nil =>
    intro l2 h
    cases l2 with
    | nil => simp [charListLtb] at h
    | cons b bs => simp [charListLtb]
  | cons a as ih =>
    intro l2 h
    cases l2 with
    | nil => simp [charListLtb] at h
    | cons b bs =>
      rw [charListLtb_cons] at h
      rw [Bool.eq_false_iff]
      intro h2
      rw [charListLtb_cons] at h2
      rcases h with h | ⟨he, hr⟩ <;> rcases h2 with h2 | ⟨h2e, h2r⟩
      · omega
      · omega
      · omega
      · exact absurd (ih bs hr) (by simp [h2r])

theorem charListLtb_connex (l1 : List Char) : ∀ (l2 : List Char),
    charListLtb l1 l2 = false → charListLtb l2 l1 = false → l1 = l2 := by
  induction l1 with
  | nil =>
    intro l2 h1 _
    cases l2 with
    | nil => rfl
    | cons b bs => simp [charListLtb] at h1
  | cons a as ih =>
    intro l2 h1 h2
    cases l2 with
    | nil => simp [charListLtb] at h2
    | cons b bs =>
      rw [Bool.eq_false_iff] at h1 h2
      rw [ne_eq, charListLtb_cons] at h1 h2
      push_neg at h1 h2
      have hab : a.toNat = b.toNat := by
        have hx := h1.1
        have hy := h2.1
        omega
      have : as = bs := by
        refine ih bs ?_ ?_
        · rw [Bool.eq_false_iff]
          intro hc
          exact absurd hc (h1.2 hab)
        · rw [Bool.eq_false_iff]
          intro hc
          exact absurd hc (h2.2 hab.symm)
      rw [charTonat_inj hab, this]

/-- The comparator used to model `sorted(strings, reverse=True)` is
transitive. -/
theorem strDesc_trans (a b c : String) :
    strLeb b a = true → strLeb c b = true → strLeb c a = true := by
  simp only [strLeb, strLtb, Bool.not_eq_true']
  intro h1 h2
  rw [Bool.eq_false_iff]
  intro hac
  rcases Bool.eq_false_or_eq_true (charListLtb b.data a.data) with hba | hba
  · have := charListLtb_trans b.data a.data c.data hba hac
    exact absurd this (by simp [h2])
  · have he : a.data = b.data := charListLtb_connex a.data b.data h1 hba
    rw [he] at hac
    exact absurd hac (by simp [h2])

/-- The comparator used to model `sorted(strings, reverse=True)` is total. -/
theorem strDesc_total (a b : String) :
    strLeb b a = true ∨ strLeb a b = true := by
  simp only [strLeb, strLtb, Bool.not_eq_true']
  rcases Bool.eq_false_or_eq_true (charListLtb a.data b.data) with h | h
  · exact Or.inr (charListLtb_asymm a.data b.data h)
  · exact Or.inl h

theorem sortDescStr_perm (l : List String) : List.Perm (sortDescStr l) l :=
  sortLe_perm _ l

theorem sortDescStr_sorted (l : List String) :
    (sortDescStr l).Pairwise (fun a b => strLeb b a = true) :=
  sortLe_pairwise _ (fun a b c => strDesc_trans a b c)
    (fun a b => strDesc_total a b) l

/-!
Version-naming utility.

Versions are named `datetime.now().strftime('%Y-%m-%d_%H-%M-%S')`.  A
timestamp is modelled as its six zero-padded decimal fields, and the
formatted name as the corresponding character list.
-/

/-- A timestamp at second resolution: year, month, day, hour, minute,
second, as rendered by `strftime`. -/
structure Ts where
  y : Nat
  mo : Nat
  d : Nat
  h : Nat
  mi : Nat
  s : Nat
deriving DecidableEq, Repr

/-- Field bounds under which `strftime`'s zero padding yields fixed-width
fields (`%Y` four digits, the rest two). -/
def Ts.Valid (t : Ts) : Prop :=
  t.y < 10 ^ 4 ∧ t.mo < 10 ^ 2 ∧ t.d < 10 ^ 2 ∧ t.h < 10 ^ 2 ∧
    t.mi < 10 ^ 2 ∧ t.s < 10 ^ 2

instance (t : Ts) : Decidable t.Valid := by
  unfold Ts.Valid
  infer_instance

/-- `n` rendered as exactly `w` decimal digits, zero padded (the behaviour
of `%Y`/`%m`/... for in-range values). -/
def padNum : Nat → Nat → List Char
  | 0, _ => []
  | w + 1, n => padNum w (n / 10) ++ [Nat.digitChar (n % 10)]

/-- The character list of `strftime('%Y-%m-%d_%H-%M-%S')`. -/
def fmtChars (t : Ts) : List Char :=
  padNum 4 t.y ++ '-' :: (padNum 2 t.mo ++ '-' :: (padNum 2 t.d ++
    '_' :: (padNum 2 t.h ++ '-' :: (padNum 2 t.mi ++ '-' :: padNum 2 t.s))))

/-- The Version name produced for timestamp `t`. -/
def fmtTs (t : Ts) : String := String.mk (fmtChars t)

/-- Chronological strict order on timestamps. -/
def chronoLt (a b : Ts) : Prop :=
  a.y < b.y ∨ (a.y = b.y ∧ (a.mo < b.mo ∨ (a.mo = b.mo ∧ (a.d < b.d ∨
    (a.d = b.d ∧ (a.h < b.h ∨ (a.h = b.h ∧ (a.mi < b.mi ∨
      (a.mi = b.mi ∧ a.s < b.s)))))))))

instance (a b : Ts) : Decidable (chronoLt a b) := by
  unfold chronoLt
  infer_instance

theorem padNum_length (w n : Nat) : (padNum w n).length = w := by
  induction w generalizing n with
  | zero => rfl
  | succ w ih => simp [padNum, ih]

theorem digitChar_toNat {d : Nat} (h : d < 10) :
    (Nat.digitChar d).toNat = 48 + d := by
  interval_cases d <;> decide

theorem charListLtb_singleton (a b : Char) :
    (charListLtb [a] [b] = true ↔ a.toNat < b.toNat) := by
  rw [charListLtb_cons]
  simp [charListLtb]

theorem charListLtb_append (p1 : List Char) : ∀ (p2 q1 q2 : List Char),
    p1.length = p2.length →
    (charListLtb (p1 ++ q1) (p2 ++ q2) = true ↔
      (charListLtb p1 p2 = true ∨ (p1 = p2 ∧ charListLtb q1 q2 = true))) := by
  induction p1 with
  | nil =>
    intro p2 q1 q2 h
    cases p2 with
    | nil => simp [charListLtb]
    | cons b bs => simp at h
  | cons a as ih =>
    intro p2 q1 q2 h
    cases p2 with
    | nil => simp at h
    | cons b bs =>
      have h' : as.length = bs.length := by simpa using h
      simp only [List.cons_append]
      rw [charListLtb_cons, charListLtb_cons, ih bs q1 q2 h']
      constructor
      · rintro (hlt | ⟨heq, h2 | ⟨he, h3⟩⟩)
        · exact Or.inl (Or.inl hlt)
        · exact Or.inl (Or.inr ⟨heq, h2⟩)
        · exact Or.inr ⟨by rw [charTonat_inj heq, he], h3⟩
      · rintro ((hlt | ⟨heq, h2⟩) | ⟨heq, h3⟩)
        · exact Or.inl hlt
        · exact Or.inr ⟨heq, Or.inl h2⟩
        · obtain ⟨he1, he2⟩ := List.cons.inj heq
          exact Or.inr ⟨by rw [he1], Or.inr ⟨he2, h3⟩⟩

theorem padNum_inj {w : Nat} : ∀ {a b : Nat}, a < 10 ^ w → b < 10 ^ w →
    padNum w a = padNum w b → a = b := by
  induction w with
  | zero =>
    intro a b ha hb _
    simp only [pow_zero, Nat.lt_one_iff] at ha hb
    omega
  | succ w ih =>
    intro a b ha hb h
    simp only [padNum] at h
    obtain ⟨h1, h2⟩ :=
      List.append_inj h (by rw [padNum_length, padNum_length])
    have hda : a % 10 < 10 := Nat.mod_lt _ (by norm_num)
    have hdb : b % 10 < 10 := Nat.mod_lt _ (by norm_num)
    have hm : a % 10 = b % 10 := by
      have := List.cons.inj h2
      have hto : (Nat.digitChar (a % 10)).toNat =
          (Nat.digitChar (b % 10)).toNat := by rw [this.1]
      rw [digitChar_toNat hda, digitChar_toNat hdb] at hto
      omega
    have hqa : a / 10 < 10 ^ w := by
      rw [Nat.div_lt_iff_lt_mul (by norm_num)]
      calc a < 10 ^ (w + 1) := ha
      _ = 10 ^ w * 10 := by rw [pow_succ]
    have hqb : b / 10 < 10 ^ w := by
      rw [Nat.div_lt_iff_lt_mul (by norm_num)]
      calc b < 10 ^ (w + 1) := hb
      _ = 10 ^ w * 10 := by rw [pow_succ]
    have hq : a / 10 = b / 10 := ih hqa hqb h1
    omega

theorem padNum_lt {w : Nat} : ∀ {a b : Nat}, a < 10 ^ w → b < 10 ^ w →
    (charListLtb (padNum w a) (padNum w b) = true ↔ a < b) := by
  induction w with
  | zero =>
    intro a b ha hb
    simp only [pow_zero, Nat.lt_one_iff] at ha hb
    subst ha
    subst hb
    simp [padNum, charListLtb]
  | succ w ih =>
    intro a b ha hb
    have hda : a % 10 < 10 := Nat.mod_lt _ (by norm_num)
    have hdb : b % 10 < 10 := Nat.mod_lt _ (by norm_num)
    have hqa : a / 10 < 10 ^ w := by
      rw [Nat.div_lt_iff_lt_mul (by norm_num)]
      calc a < 10 ^ (w + 1) := ha
      _ = 10 ^ w * 10 := by rw [pow_succ]
    have hqb : b / 10 < 10 ^ w := by
      rw [Nat.div_lt_iff_lt_mul (by norm_num)]
      calc b < 10 ^ (w + 1) := hb
      _ = 10 ^ w * 10 := by rw [pow_succ]
    simp only [padNum]
    rw [charListLtb_append _ _ _ _ (by rw [padNum_length, padNum_length]),
      ih hqa hqb, charListLtb_singleton,
      digitChar_toNat hda, digitChar_toNat hdb]
    have hpe : padNum w (a / 10) = padNum w (b / 10) ↔ a / 10 = b / 10 :=
      ⟨fun h => padNum_inj hqa hqb h, fun h => by rw [h]⟩
    rw [hpe]
    omega

theorem padNum_eq_iff {w a b : Nat} (ha : a < 10 ^ w) (hb : b < 10 ^ w) :
    padNum w a = padNum w b ↔ a = b :=
  ⟨fun h => padNum_inj ha hb h, fun h => by rw [h]⟩

/-- One `field ++ separator ++ rest` step of the format comparison. -/
theorem charListLtb_field {w a b : Nat} (sep : Char) (q1 q2 : List Char)
    (ha : a < 10 ^ w) (hb : b < 10 ^ w) :
    (charListLtb (padNum w a ++ sep :: q1) (padNum w b ++ sep :: q2) = true ↔
      (a < b ∨ (a = b ∧ charListLtb q1 q2 = true))) := by
  rw [charListLtb_append _ _ _ _ (by rw [padNum_length, padNum_length]),
    padNum_lt ha hb, padNum_eq_iff ha hb, charListLtb_cons]
  simp [Nat.lt_irrefl]

/-- Lexicographic (code-point) comparison of two formatted Version names
agrees with chronological comparison of the underlying timestamps. -/
theorem fmtTs_lt_iff {t1 t2 : Ts} (h1 : t1.Valid) (h2 : t2.Valid) :
    (strLtb (fmtTs t1) (fmtTs t2) = true ↔ chronoLt t1 t2) := by
  obtain ⟨hy1, hmo1, hd1, hh1, hmi1, hs1⟩ := h1
  obtain ⟨hy2, hmo2, hd2, hh2, hmi2, hs2⟩ := h2
  show charListLtb (fmtChars t1) (fmtChars t2) = true ↔ chronoLt t1 t2
  unfold fmtChars chronoLt
  rw [charListLtb_field _ _ _ hy1 hy2, charListLtb_field _ _ _ hmo1 hmo2,
    charListLtb_field _ _ _ hd1 hd2, charListLtb_field _ _ _ hh1 hh2,
    charListLtb_field _ _ _ hmi1 hmi2, padNum_lt hs1 hs2]

/-!
Filesystem model.

A folder's contents are modelled as the list of files in its recursive
walk: relative path (as segments), size in bytes, and modification time
in seconds (`os.path.getmtime` returns fractional seconds, modelled as a
rational).  File paths name files; the file-versus-directory collision
corner (a live file whose relative path is a directory in the
candidate) is outside the model.
-/

/-- One file of a folder walk: relative path segments, size, mtime. -/
structure SFile where
  path : List String
  size : Nat
  mtime : Rat
deriving DecidableEq, Repr

/-- The recursive contents of one folder. -/
abbrev Folder := List SFile

/-- Python's `int()` applied to a (rational) number of seconds: truncation
toward zero. -/
def pyTrunc (q : Rat) : Int := q.num.tdiv q.den

/-- `folder_differs(folder1, folder2)` (savesync_gui.py:50-62): walk every
file under the live folder and compare it with the file at the same
relative path in the candidate; report a difference on absence, size
mismatch, or whole-second mtime mismatch. -/
def folderDiffers (live cand : Folder) : Bool :=
  live.any fun f =>
    match cand.find? (fun g => g.path = f.path) with
    | none => true
    | some g =>
      (f.size ≠ g.size : Bool) || (pyTrunc f.mtime ≠ pyTrunc g.mtime : Bool)

/-- First-match association lookup (a directory listing, a node map). -/
def lookupA {κ β : Type} [DecidableEq κ] (l : List (κ × β)) (k : κ) :
    Option β :=
  (l.find? (fun p => p.1 = k)).map (fun p => p.2)

/-- Replace the value at a key (every occurrence of the key). -/
def updateA {κ β : Type} [DecidableEq κ] (l : List (κ × β)) (k : κ) (v : β) :
    List (κ × β) :=
  l.map (fun p => if p.1 = k then (k, v) else p)

/-- Set a key to a value, inserting it if absent. -/
def putA {κ β : Type} [DecidableEq κ] (l : List (κ × β)) (k : κ) (v : β) :
    List (κ × β) :=
  match lookupA l k with
  | none => (k, v) :: l
  | some _ => updateA l k v

/-!
Remote (MEGA) hierarchy model.

The cloud drive is a flat store of nodes with parent pointers, as the
mega.py client presents it: each node has a handle (id), a parent
handle, a name attribute `a.n`, a type `t` (1 = folder, 0 = file), a
creation timestamp attribute `ts`, and for files a size.  Fresh handles
come from a counter and are never reused; `destroy` removes a node, its
descendants becoming unreachable.  The Python code tests looked-up
handles with truthiness (`if cid:`); real MEGA handles are nonempty
strings, so this is modelled as an `Option` presence test.
-/

/-- One node of the remote store. -/
structure MNode where
  id : Nat
  parent : Nat
  name : String
  isFolder : Bool
  ts : Nat
  size : Nat
deriving DecidableEq, Repr

/-- The remote store: the Cloud Drive root handle, the fresh-handle
counter, and the nodes. -/
structure MState where
  root : Nat
  ctr : Nat
  nodes : List MNode
deriving DecidableEq, Repr

/-- `m.get_files_in_node(p)`: the direct children of a node. -/
def getFilesInNode (s : MState) (p : Nat) : List MNode :=
  s.nodes.filter (fun n => n.parent = p)

/-- `_get_child_folder_id(m, parent_id, name)` (savesync_gui.py:64-69):
the first child folder of `p` named `name`, if any. -/
def getChildFolderId (s : MState) (p : Nat) (name : String) : Option Nat :=
  ((getFilesInNode s p).find?
    (fun n => n.isFolder && n.name = name)).map (fun n => n.id)

/-- `m._mkdir(name, parent_id)` / `m.create_folder(name, dest)`: create a
folder node with a fresh handle under `p`. -/
def mkdirM (s : MState) (p : Nat) (name : String) (now : Nat) :
    MState × Nat :=
  ({ s with nodes := s.nodes ++ [⟨s.ctr, p, name, true, now, 0⟩], ctr := s.ctr + 1 }, s.ctr)

/-- `_ensure_child_folder(m, parent_id, name)` (savesync_gui.py:71-76):
reuse an existing child folder of that name, else create one. -/
def ensureChildFolder (s : MState) (p : Nat) (name : String) (now : Nat) :
    MState × Nat :=
  match getChildFolderId s p name with
  | some cid => (s, cid)
  | none => mkdirM s p name now

/-- The path segments `_ensure_path` iterates: split on `/`, skipping
empty segments and `.` (savesync_gui.py:80-82). -/
def cleanSegs (rel : String) : List String :=
  (rel.splitOn "/").filter (fun seg => !(seg = "" || seg = "."))

/-- `_ensure_path(m, parent_id, rel_path)` (savesync_gui.py:78-84). -/
def ensurePath (s : MState) (p : Nat) (rel : String) (now : Nat) :
    MState × Nat :=
  (cleanSegs rel).foldl
    (fun acc seg => ensureChildFolder acc.1 acc.2 seg now) (s, p)

/-- `m.find_path_descriptor(path)`: resolve a slash path from the root,
taking at each step the first child (of any type) with the segment's
name. -/
def findPathDescriptor (s : MState) (segs : List String) : Option Nat :=
  segs.foldl
    (fun acc seg => acc.bind (fun p =>
      ((getFilesInNode s p).find? (fun n => n.name = seg)).map
        (fun n => n.id)))
    (some s.root)

/-- `ts_folders.sort(key=lambda x: x[1]['a']['n'], reverse=True)`:
newest-first by name. -/
def sortNodesByNameDesc (l : List MNode) : List MNode :=
  sortLe (fun a b => strLeb b.name a.name) l

/-- `enforce_mega_retention(m, game_name, keep, log)`
(savesync_gui.py:140-158): under `SaveSync/<game>` sort the child
folders newest-first by name and destroy every folder beyond index
`keep`. -/
def enforceMegaRetention (s : MState) (game : String) (keep : Nat) :
    MState :=
  match getChildFolderId s s.root "SaveSync" with
  | none => s
  | some sid =>
    match getChildFolderId s sid game with
    | none => s
    | some gid =>
      let tsFolders := (getFilesInNode s gid).filter (fun n => n.isFolder)
      let doomed :=
        ((sortNodesByNameDesc tsFolders).drop keep).map (fun n => n.id)
      { s with nodes := s.nodes.filter (fun n => !(doomed.contains n.id)) }

/-- The `SaveSync` / game folder establishment of `upload_to_mega`
(savesync_gui.py:181-183); returns the state and the game folder id. -/
def uploadEnsureGame (s : MState) (game : String) (now : Nat) :
    MState × Nat :=
  let r1 := ensureChildFolder s s.root "SaveSync" now
  ensureChildFolder r1.1 r1.2 game now

/-- One directory of the `os.walk(folder_path)` loop
(savesync_gui.py:191-202): resolve the target folder (the Version node
for `.`, else `_ensure_path` below it) and upload each file into it. -/
def uploadDir (tsId : Nat) (now : Nat) (s : MState)
    (d : String × List (String × Nat)) : MState :=
  let t := if d.1 = "." then (s, tsId) else ensurePath s tsId d.1 now
  d.2.foldl
    (fun s2 f =>
      { s2 with nodes := s2.nodes ++ [⟨s2.ctr, t.2, f.1, false, now, f.2⟩], ctr := s2.ctr + 1 }) t.1

/-- The Version-folder resolution and file walk of `upload_to_mega`
(savesync_gui.py:184-202).  The walk is the `os.walk` output of the
version folder: a list of (relative directory path, files with sizes).
If the Version folder cannot be resolved even after creating it, the
walk raises at its first action, leaving the pre-walk state (`none`). -/
def uploadMaterialize (s : MState) (gid : Nat) (game ts : String)
    (now : Nat) (dirs : List (String × List (String × Nat))) :
    MState × Option Nat :=
  match findPathDescriptor s ["SaveSync", game, ts] with
  | some t => (dirs.foldl (uploadDir t now) s, some t)
  | none =>
    let c := mkdirM s gid ts now
    match findPathDescriptor c.1 ["SaveSync", game, ts] with
    | some t => (dirs.foldl (uploadDir t now) c.1, some t)
    | none => (c.1, none)

/-- `upload_to_mega(game_name, folder_path, log)` (savesync_gui.py:160-210)
on its successful authentication path: ensure the hierarchy, upload the
walk, then prune with the literal keep-count 3.  When the Version node
could not be resolved the walk raises unless it had nothing to do, and
the retention call is skipped. -/
def uploadToMega (s : MState) (game ts : String) (now : Nat)
    (dirs : List (String × List (String × Nat))) : MState :=
  let g := uploadEnsureGame s game now
  let mz := uploadMaterialize g.1 g.2 game ts now dirs
  match mz.2 with
  | some _ => enforceMegaRetention mz.1 game 3
  | none =>
    if dirs.all (fun d => d.1 = "." && d.2.isEmpty) then
      enforceMegaRetention mz.1 game 3
    else mz.1

/-- The sorted cloud-backup folder list of `_mega_get_backups`
(savesync_gui.py:385-387): child folders of the game node, sorted by
the node `ts` attribute descending. -/
def megaGetBackupsNodes (s : MState) (game : String) : List MNode :=
  match findPathDescriptor s ["SaveSync", game] with
  | none => []
  | some gid =>
    sortLe (fun a b => decide (b.ts ≤ a.ts))
      ((getFilesInNode s gid).filter (fun n => n.isFolder))

/-- `_mega_get_backups(game_name)` (savesync_gui.py:372-388): the
`(name, node_id)` pairs presented to the selection surface. -/
def megaGetBackups (s : MState) (game : String) : List (String × Nat) :=
  (megaGetBackupsNodes s game).map (fun n => (n.name, n.id))

/-- The file items `restore_from_mega_by_id` downloads
(savesync_gui.py:412-413): the direct children of the Version node of
type file. -/
def downloadedFiles (s : MState) (nodeId : Nat) : List MNode :=
  (getFilesInNode s nodeId).filter (fun n => !n.isFolder)

/-- The (relative path, size) file set of the whole subtree below a node;
`fuel` bounds the recursion depth (take `s.nodes.length`). -/
def subtreeFiles (s : MState) : Nat → Nat → List (List String × Nat)
  | 0, _ => []
  | fuel + 1, p =>
    (getFilesInNode s p).foldr
      (fun n acc =>
        if n.isFolder then
          (subtreeFiles s fuel n.id).map (fun q => (n.name :: q.1, q.2)) ++ acc
        else ([n.name], n.size) :: acc) []

/-!
Configuration and world state.

The JSON configuration maps game names to `{save_path}` entries plus a
reserved `_settings` object.  The program reads `sync_local`,
`sync_mega` and `minimize_to_tray` from `_settings` (defaulting to
true/true/false); `keepCount` models a retention-count entry such an
object may carry — the reserved settings record of the specification —
which the program never reads.  Since each game's save path is its own
key in the configuration, live folders are keyed by game name here.
-/

/-- The resolved `_settings` record. -/
structure Settings where
  sync_local : Bool
  sync_mega : Bool
  minimize_to_tray : Bool
  keepCount : Nat
deriving DecidableEq, Repr

/-- The loaded configuration: game names plus settings. -/
structure Config where
  games : List String
  settings : Settings
deriving DecidableEq, Repr

/-- The filesystem-and-cloud state the engine acts on: per-game live
folders (absent key = missing path), the local version store
`BACKUP_ROOT/<game>/<timestamp>`, the process temporary directories
(fresh ids from `tctr`, as `tempfile.mkdtemp` yields fresh names), and
the remote store. -/
structure World where
  live : List (String × Folder)
  store : List (String × List (String × Folder))
  temps : List (Nat × List (String × Folder))
  tctr : Nat
  remote : MState
deriving DecidableEq, Repr

/-- `os.makedirs(dest_parent, exist_ok=True)` followed by
`shutil.copytree(src, dest)` (savesync_gui.py:309-312): record the new
Version under the game's store entry. -/
def storePut (st : List (String × List (String × Folder)))
    (game ts : String) (src : Folder) :
    List (String × List (String × Folder)) :=
  match lookupA st game with
  | none => (game, [(ts, src)]) :: st
  | some vs => updateA st game ((ts, src) :: vs)

/-- `tempfile.mkdtemp` plus `shutil.copytree(src, temp_dest)`
(savesync_gui.py:319-322): a fresh temporary directory holding the
timestamp-named copy of the live folder; returns the new world and the
temporary directory's id. -/
def stageTemp (w : World) (ts : String) (src : Folder) : World × Nat :=
  ({ w with temps := (w.tctr, [(ts, src)]) :: w.temps, tctr := w.tctr + 1 }, w.tctr)

/-- `backup_game(game_name, log)` (savesync_gui.py:285-332).  `up` is the
effect of the `upload_to_mega` call on the remote store (the call
handles its own failures internally, so an arbitrary `up` covers
success and failure alike).  `ts` is the freshly computed timestamp
name. -/
def backupGame (w : World) (cfg : Config) (game ts : String)
    (up : MState → MState) : World :=
  if !(cfg.games.contains game) then w
  else if !cfg.settings.sync_local && !cfg.settings.sync_mega then w
  else
    match lookupA w.live game with
    | none => w
    | some src =>
      if cfg.settings.sync_local then
        let w1 : World := { w with store := storePut w.store game ts src }
        if cfg.settings.sync_mega then { w1 with remote := up w1.remote }
        else w1
      else
        let st := stageTemp w ts src
        let w2 : World :=
          if cfg.settings.sync_mega then { st.1 with remote := up st.1.remote }
          else st.1
        { w2 with temps := w2.temps.filter (fun t => t.1 ≠ st.2) }

/-- The per-game decision of `check_and_auto_backup`
(savesync_gui.py:922-925): back up when no prior local Version exists,
or the newest one (first of the name-descending listing) differs from
the live folder. -/
def autoNeedsBackup (vs : List (String × Folder)) (src : Folder) : Bool :=
  match (sortDescStr (vs.map (fun v => v.1))).head? with
  | none => true
  | some latest => folderDiffers src ((lookupA vs latest).getD [])

/-- One game of the `check_and_auto_backup` loop (savesync_gui.py:912-929):
skip a missing save path, `os.makedirs(backup_path, exist_ok=True)`,
then back up if needed. -/
def autoGameStep (cfg : Config) (ts : String) (up : MState → MState)
    (w : World) (game : String) : World :=
  match lookupA w.live game with
  | none => w
  | some src =>
    let w1 : World :=
      match lookupA w.store game with
      | none => { w with store := (game, []) :: w.store }
      | some _ => w
    if autoNeedsBackup ((lookupA w1.store game).getD []) src then
      backupGame w1 cfg game ts up
    else w1

/-- `check_and_auto_backup` (savesync_gui.py:905-929): skip everything
when both sync flags are disabled, else run the per-game pass. -/
def checkAndAutoBackup (w : World) (cfg : Config) (ts : String)
    (up : MState → MState) : World :=
  if !cfg.settings.sync_local && !cfg.settings.sync_mega then w
  else cfg.games.foldl (fun w2 g => autoGameStep cfg ts up w2 g) w

/-- `restore_game_selected(game_name, selected, log)`
(savesync_gui.py:354-370): if the selected backup directory exists,
remove the live folder and `copytree` the backup over it; a missing
configuration entry raises and is caught, leaving everything
unchanged. -/
def restoreGameSelected (w : World) (cfg : Config) (game sel : String) :
    World :=
  match (lookupA w.store game).bind (fun vs => lookupA vs sel) with
  | none => w
  | some tree =>
    if cfg.games.contains game then
      { w with live := putA w.live game tree }
    else w

/-- `restore_game(game_name, log)` (savesync_gui.py:334-352) with the
selection dialog's answer passed in (`none` = cancelled): enumerate
local backups newest-first by name, validate the selection, then
restore. -/
def restoreGame (w : World) (cfg : Config) (game : String)
    (sel : Option String) : World :=
  match lookupA w.store game with
  | none => w
  | some vs =>
    let backups := sortDescStr (vs.map (fun v => v.1))
    if backups.isEmpty then w
    else
      match sel with
      | none => w
      | some name =>
        if name = "" then w
        else if backups.contains name then
          restoreGameSelected w cfg game name
        else w

/-- A replace-or-append write of a downloaded file into the live folder
(`shutil.move(src, dst)` overwrites an existing destination).  The
download's fresh mtime is not modelled (recorded as 0). -/
def filePut (acc : Folder) (p : List String) (sz : Nat) : Folder :=
  if acc.any (fun f => f.path = p) then
    acc.map (fun f => if f.path = p then ⟨p, sz, 0⟩ else f)
  else acc ++ [⟨p, sz, 0⟩]

/-- `restore_from_mega_by_id(game_name, node_id, log)`
(savesync_gui.py:390-429) on its successful path: remove and recreate
the live folder, then download each direct-child file of the Version
node into a temporary staging directory and move it into place (the
staging directory is created and fully removed, a net no-op on
`temps`).  A missing configuration entry raises before the removal and
is caught. -/
def restoreFromMegaById (w : World) (cfg : Config) (game : String)
    (nodeId : Nat) : World :=
  if cfg.games.contains game then
    let newLive := (downloadedFiles w.remote nodeId).foldl
      (fun acc n => filePut acc [n.name] n.size) []
    { w with live := putA w.live game newLive }
  else w

/-- `restore_from_mega(game_name, log)` (savesync_gui.py:212-283) with the
selection dialog's answer passed in: resolve `SaveSync/<game>`, list
the Version folders newest-first by the node `ts` attribute, validate
the selection, then restore that node's direct-child files as in
`restore_from_mega_by_id`. -/
def restoreFromMega (w : World) (cfg : Config) (game : String)
    (sel : Option String) : World :=
  match findPathDescriptor w.remote ["SaveSync"] with
  | none => w
  | some _ =>
    match findPathDescriptor w.remote ["SaveSync", game] with
    | none => w
    | some gid =>
      let subs := sortLe (fun a b => decide (b.ts ≤ a.ts))
        ((getFilesInNode w.remote gid).filter (fun n => n.isFolder))
      if subs.isEmpty then w
      else
        match sel with
        | none => w
        | some name =>
          if name = "" then w
          else
            match subs.find? (fun n => n.name = name) with
            | none => w
            | some node =>
              if cfg.games.contains game then
                let newLive := (downloadedFiles w.remote node.id).foldl
                  (fun acc n => filePut acc [n.name] n.size) []
                { w with live := putA w.live game newLive }
              else w

/-! Association-list and list helper lemmas. -/

theorem lookupA_cons_self {κ β : Type} [DecidableEq κ] (l : List (κ × β))
    (k : κ) (v : β) : lookupA ((k, v) :: l) k = some v := by
  simp [lookupA]

theorem lookupA_updateA {κ β : Type} [DecidableEq κ] (l : List (κ × β))
    (k : κ) (v : β) :
    lookupA (updateA l k v) k = (lookupA l k).map (fun _ => v) := by
  induction l with
  | nil => rfl
  | cons p ps ih =>
    by_cases hp : p.1 = k
    · simp [lookupA, updateA, hp]
    · simp only [lookupA, updateA, List.map_cons, if_neg hp] at ih ⊢
      rw [List.find?_cons_of_neg, List.find?_cons_of_neg]
      · exact ih
      · simpa using hp
      · simpa using hp

theorem lookupA_putA_self {κ β : Type} [DecidableEq κ] (l : List (κ × β))
    (k : κ) (v : β) : lookupA (putA l k v) k = some v := by
  unfold putA
  cases h : lookupA l k with
  | none => exact lookupA_cons_self l k v
  | some w => rw [lookupA_updateA, h]; rfl

theorem anyCongr {α : Type} {p q : α → Bool} (l : List α)
    (h : ∀ a ∈ l, p a = q a) : l.any p = l.any q := by
  induction l with
  | nil => rfl
  | cons a as ih =>
    simp only [List.any_cons, h a (List.mem_cons_self a as),
      ih (fun x hx => h x (List.mem_cons_of_mem a hx))]

/-!
Claim theorems.
-/

/-- C3: if both sync flags are false, the backup pass (both the direct
`backup_game` call and the auto-sync pass) creates no Version and leaves
the whole world — live folders, local store, temporary directories,
remote store — unchanged. -/
theorem c3_disabled_sync_no_writes (w : World) (cfg : Config)
    (game ts : String) (up : MState → MState)
    (hl : cfg.settings.sync_local = false)
    (hm : cfg.settings.sync_mega = false) :
    backupGame w cfg game ts up = w ∧ checkAndAutoBackup w cfg ts up = w := by
  constructor
  · unfold backupGame
    rw [hl, hm]
    simp
  · unfold checkAndAutoBackup
    rw [hl, hm]
    simp

theorem c3_disabled_sync_no_writes_witness :
    backupGame ⟨[("G", [⟨["a"], 1, 2⟩])], [], [], 0, ⟨0, 1, []⟩⟩
      ⟨["G"], ⟨false, false, false, 3⟩⟩ "G" "2024-01-01_00-00-00" id =
      ⟨[("G", [⟨["a"], 1, 2⟩])], [], [], 0, ⟨0, 1, []⟩⟩ :=
  (c3_disabled_sync_no_writes _ _ _ _ id rfl rfl).1

/-- C2: `folder_differs` reports a difference exactly when some live file
is absent in the candidate at the same relative path, or sizes differ,
or whole-second mtimes differ; candidate-only files never cause a
difference; and the auto-sync pass treats the absence of any prior
local Version as a difference. -/
theorem c2_change_detector (live cand : Folder)
    (hc : (cand.map (fun g => g.path)).Nodup) :
    (folderDiffers live cand = true ↔
      ∃ f ∈ live,
        (∀ g ∈ cand, g.path ≠ f.path) ∨
        ∃ g ∈ cand, g.path = f.path ∧
          (f.size ≠ g.size ∨ pyTrunc f.mtime ≠ pyTrunc g.mtime)) ∧
    (∀ g : SFile, (∀ f ∈ live, f.path ≠ g.path) →
      folderDiffers live (g :: cand) = folderDiffers live cand) ∧
    (∀ src : Folder, autoNeedsBackup [] src = true) := by
  refine ⟨?_, ?_, fun _ => rfl⟩
  · unfold folderDiffers
    rw [List.any_eq_true]
    constructor
    · rintro ⟨f, hf, hp⟩
      refine ⟨f, hf, ?_⟩
      cases hfind : cand.find? (fun g => g.path = f.path) with
      | none =>
        left
        intro g hg
        have := List.find?_eq_none.mp hfind g hg
        simpa using this
      | some g0 =>
        right
        have hg0mem : g0 ∈ cand := List.mem_of_find?_eq_some hfind
        have hg0path : g0.path = f.path := by
          have := List.find?_some hfind
          simpa using this
        rw [hfind] at hp
        simp only [Bool.or_eq_true, decide_eq_true_eq] at hp
        exact ⟨g0, hg0mem, hg0path, hp⟩
    · rintro ⟨f, hf, hcase⟩
      refine ⟨f, hf, ?_⟩
      cases hfind : cand.find? (fun g => g.path = f.path) with
      | none => rfl
      | some g0 =>
        have hg0mem : g0 ∈ cand := List.mem_of_find?_eq_some hfind
        have hg0path : g0.path = f.path := by
          have := List.find?_some hfind
          simpa using this
        rcases hcase with habs | ⟨g1, hg1mem, hg1path, hdiff⟩
        · exact absurd hg0path (habs g0 hg0mem)
        · have : g1 = g0 := by
            apply List.inj_on_of_nodup_map hc hg1mem hg0mem
            rw [hg1path, hg0path]
          subst this
          simp only [Bool.or_eq_true, decide_eq_true_eq]
          exact hdiff
  · intro g hg
    unfold folderDiffers
    apply anyCongr
    intro f hf
    have : (g :: cand).find? (fun g2 => g2.path = f.path) =
        cand.find? (fun g2 => g2.path = f.path) := by
      apply List.find?_cons_of_neg
      simp only [decide_eq_true_eq]
      intro h
      exact absurd h.symm (hg f hf)
    rw [this]

theorem c2_change_detector_witness :
    folderDiffers [⟨["a"], 1, 2⟩] [] = true :=
  (c2_change_detector [⟨["a"], 1, 2⟩] [] (by decide)).1.mpr (by decide)

/-- C10: an empty live-folder walk makes `folder_differs` report no
difference, so once a prior local Version exists the auto-sync step
leaves the world untouched even when that Version contains files. -/
theorem c10_empty_live_no_backup (cand : Folder)
    (vs : List (String × Folder)) (w : World) (cfg : Config)
    (game ts : String) (up : MState → MState)
    (hvs : vs ≠ [])
    (hl : lookupA w.live game = some [])
    (hs : lookupA w.store game = some vs) :
    folderDiffers [] cand = false ∧ autoNeedsBackup vs [] = false ∧
    autoGameStep cfg ts up w game = w := by
  have hanb : autoNeedsBackup vs [] = false := by
    unfold autoNeedsBackup
    cases h : (sortDescStr (vs.map (fun v => v.1))).head? with
    | none =>
      exfalso
      rw [List.head?_eq_none_iff] at h
      have hlen := (sortDescStr_perm (vs.map (fun v => v.1))).length_eq
      rw [h] at hlen
      simp only [List.length_nil, List.length_map] at hlen
      exact hvs (List.length_eq_zero.mp hlen.symm)
    | some latest => rfl
  refine ⟨rfl, hanb, ?_⟩
  unfold autoGameStep
  rw [hl, hs]
  simp only [Option.getD_some]
  rw [hs]
  simp [hanb]

theorem c10_empty_live_no_backup_witness :
    autoNeedsBackup [("2024-01-01_00-00-00", [⟨["a"], 1, 2⟩])] [] = false :=
  (c10_empty_live_no_backup [] [("2024-01-01_00-00-00", [⟨["a"], 1, 2⟩])]
    ⟨[("G", [])], [("G", [("2024-01-01_00-00-00", [⟨["a"], 1, 2⟩])])], [], 0,
      ⟨0, 1, []⟩⟩
    ⟨["G"], ⟨true, true, false, 3⟩⟩ "G" "t" id (by decide) (by decide)
    (by decide)).2.1

/-- C9: the restore executors are non-destructive on every unconfirmed
selection: a cancelled dialog, a name outside the enumerated backup
list, or (local source) a selected backup directory that does not
exist, all leave the world — in particular the live folder — exactly as
it was, the outcome going only to the log sink (which carries no other
state). -/
theorem c9_no_destruction_without_selection (w : World) (cfg : Config)
    (game : String) :
    (restoreGame w cfg game none = w) ∧
    (∀ name vs, lookupA w.store game = some vs →
      (sortDescStr (vs.map (fun v => v.1))).contains name = false →
      restoreGame w cfg game (some name) = w) ∧
    (∀ sel, (lookupA w.store game).bind (fun vs => lookupA vs sel) = none →
      restoreGameSelected w cfg game sel = w) ∧
    (restoreFromMega w cfg game none = w) ∧
    (∀ name gid, findPathDescriptor w.remote ["SaveSync", game] = some gid →
      (∀ n ∈ (getFilesInNode w.remote gid).filter (fun n => n.isFolder),
        n.name ≠ name) →
      restoreFromMega w cfg game (some name) = w) := by
  refine ⟨?_, ?_, ?_, ?_, ?_⟩
  · unfold restoreGame
    cases hx : lookupA w.store game with
    | none => rfl
    | some vs =>
      dsimp only
      split
      · rfl
      · rfl
  · intro name vs hvs hcont
    unfold restoreGame
    rw [hvs]
    dsimp only
    split
    · rfl
    · rw [hcont]
      split
      · rfl
      · simp
  · intro sel hnone
    unfold restoreGameSelected
    rw [hnone]
  · unfold restoreFromMega
    cases h1 : findPathDescriptor w.remote ["SaveSync"] with
    | none => rfl
    | some b =>
      dsimp only
      cases h2 : findPathDescriptor w.remote ["SaveSync", game] with
      | none => rfl
      | some gid =>
        dsimp only
        split
        · rfl
        · rfl
  · intro name gid hgid hnames
    unfold restoreFromMega
    cases h1 : findPathDescriptor w.remote ["SaveSync"] with
    | none => rfl
    | some b =>
      dsimp only
      rw [hgid]
      dsimp only
      split
      · rfl
      · have hfind : (sortLe (fun a b => decide (b.ts ≤ a.ts))
            ((getFilesInNode w.remote gid).filter (fun n => n.isFolder))).find?
            (fun n => n.name = name) = none := by
          rw [List.find?_eq_none]
          intro x hx
          have hxmem : x ∈ (getFilesInNode w.remote gid).filter
              (fun n => n.isFolder) :=
            (sortLe_perm _ _).mem_iff.mp hx
          simpa using hnames x hxmem
        split
        · rfl
        · rw [hfind]

theorem c9_no_destruction_without_selection_witness :
    restoreGame ⟨[("G", [⟨["a"], 1, 2⟩])],
        [("G", [("2024-01-01_00-00-00", [])])], [], 0, ⟨0, 1, []⟩⟩
      ⟨["G"], ⟨true, true, false, 3⟩⟩ "G" (some "nope") =
      ⟨[("G", [⟨["a"], 1, 2⟩])],
        [("G", [("2024-01-01_00-00-00", [])])], [], 0, ⟨0, 1, []⟩⟩ :=
  (c9_no_destruction_without_selection _ _ "G").2.1 "nope"
    [("2024-01-01_00-00-00", [])] (by decide) (by decide)

/-- C8: with local snapshots disabled and remote sync enabled,
`backup_game` stages the live folder's copy in a fresh temporary
directory under the timestamp name, and that temporary directory is
gone from the final state whatever the upload did — the local store and
live folders are untouched throughout. -/
theorem c8_temp_staging_cleanup (w : World) (cfg : Config)
    (game ts : String) (src : Folder)
    (hl : cfg.settings.sync_local = false)
    (hm : cfg.settings.sync_mega = true)
    (hg : cfg.games.contains game = true)
    (hsrc : lookupA w.live game = some src)
    (htc : ∀ t ∈ w.temps, t.1 < w.tctr) :
    lookupA (stageTemp w ts src).1.temps (stageTemp w ts src).2 =
      some [(ts, src)] ∧
    ∀ up : MState → MState,
      (backupGame w cfg game ts up).temps = w.temps ∧
      (backupGame w cfg game ts up).store = w.store ∧
      (backupGame w cfg game ts up).live = w.live := by
  constructor
  · exact lookupA_cons_self w.temps w.tctr [(ts, src)]
  · intro up
    unfold backupGame
    rw [hl, hm, hg, hsrc]
    simp only [Bool.not_true, Bool.false_and, Bool.and_false, ite_false,
      if_false, Bool.not_false]
    have hfilter :
        ((w.tctr, [(ts, src)]) :: w.temps).filter
          (fun t => t.1 ≠ (stageTemp w ts src).2) = w.temps := by
      rw [List.filter_cons]
      simp only [stageTemp, decide_not]
      rw [if_neg (by simp)]
      rw [List.filter_eq_self]
      intro t ht
      have := htc t ht
      simp only [decide_not, Bool.not_eq_true', decide_eq_false_iff_not]
      omega
    refine ⟨?_, rfl, rfl⟩
    simpa [stageTemp] using hfilter

theorem c8_temp_staging_cleanup_witness :
    (backupGame ⟨[("G", [⟨["a"], 1, 2⟩])], [], [], 0, ⟨0, 1, []⟩⟩
      ⟨["G"], ⟨false, true, false, 3⟩⟩ "G" "2024-01-01_00-00-00" id).temps =
      ([] : List (Nat × List (String × Folder))) :=
  ((c8_temp_staging_cleanup ⟨[("G", [⟨["a"], 1, 2⟩])], [], [], 0, ⟨0, 1, []⟩⟩
    ⟨["G"], ⟨false, true, false, 3⟩⟩ "G" "2024-01-01_00-00-00"
    [⟨["a"], 1, 2⟩] rfl rfl (by decide) (by decide)
    (by intro t ht; simp at ht)).2 id).1

theorem filePut_append (acc : Folder) (p : List String) (sz : Nat)
    (h : ∀ f ∈ acc, f.path ≠ p) :
    filePut acc p sz = acc ++ [⟨p, sz, 0⟩] := by
  unfold filePut
  rw [if_neg]
  simp only [List.any_eq_true, decide_eq_true_eq, not_exists]
  intro f
  intro hc
  exact absurd hc.2 (h f hc.1)

theorem filePut_fold (items : List MNode) : ∀ acc : Folder,
    (items.map (fun n => n.name)).Nodup →
    (∀ n ∈ items, ∀ f ∈ acc, f.path ≠ [n.name]) →
    items.foldl (fun acc2 n => filePut acc2 [n.name] n.size) acc =
      acc ++ items.map (fun n => (⟨[n.name], n.size, 0⟩ : SFile)) := by
  induction items with
  | nil => intro acc _ _; simp
  | cons n ns ih =>
    intro acc hnd hdis
    rw [List.map_cons, List.nodup_cons] at hnd
    rw [List.foldl_cons,
      filePut_append acc [n.name] n.size
        (fun f hf => hdis n (List.mem_cons_self n ns) f hf)]
    have hx : ∀ m ∈ ns, ∀ f ∈ acc ++ [(⟨[n.name], n.size, 0⟩ : SFile)],
        f.path ≠ [m.name] := by
      intro m hm f hf
      rcases List.mem_append.mp hf with hf | hf
      · exact hdis m (List.mem_cons_of_mem n hm) f hf
      · have : f = ⟨[n.name], n.size, 0⟩ := by simpa using hf
        subst this
        simp only [ne_eq, List.cons.injEq, and_true]
        intro he
        refine hnd.1 ?_
        rw [he]
        exact List.mem_map_of_mem (fun x => x.name) hm
    rw [ih (acc ++ [(⟨[n.name], n.size, 0⟩ : SFile)]) hnd.2 hx]
    simp

/-- C1 (amended): after a confirmed local restore the live folder's
contents equal the selected Version exactly (names, sizes and
subdirectories included), regardless of what was live before; after a
confirmed remote restore the live folder holds exactly the Version
node's direct-child files — files in subdirectories of the Version are
not downloaded. -/
theorem c1_restore_resulting_contents (w : World) (cfg : Config)
    (game : String) (hg : cfg.games.contains game = true) :
    (∀ sel tree,
      (lookupA w.store game).bind (fun vs => lookupA vs sel) = some tree →
      lookupA (restoreGameSelected w cfg game sel).live game = some tree) ∧
    (∀ nodeId,
      ((downloadedFiles w.remote nodeId).map (fun n => n.name)).Nodup →
      lookupA (restoreFromMegaById w cfg game nodeId).live game =
        some ((downloadedFiles w.remote nodeId).map
          (fun n => (⟨[n.name], n.size, 0⟩ : SFile)))) := by
  constructor
  · intro sel tree htree
    unfold restoreGameSelected
    rw [htree]
    dsimp only
    rw [if_pos hg]
    exact lookupA_putA_self w.live game tree
  · intro nodeId hnd
    unfold restoreFromMegaById
    rw [if_pos hg]
    dsimp only
    rw [filePut_fold (downloadedFiles w.remote nodeId) [] hnd
      (by intro n _ f hf; simp at hf)]
    rw [List.nil_append]
    exact lookupA_putA_self w.live game _

theorem c1_restore_resulting_contents_witness :
    lookupA (restoreGameSelected
      ⟨[("G", [⟨["old"], 7, 0⟩])],
        [("G", [("2024-01-01_00-00-00", [⟨["sub", "a.sav"], 100, 0⟩])])],
        [], 0, ⟨0, 1, []⟩⟩
      ⟨["G"], ⟨true, true, false, 3⟩⟩ "G" "2024-01-01_00-00-00").live "G" =
      some [⟨["sub", "a.sav"], 100, 0⟩] :=
  (c1_restore_resulting_contents _ _ "G" (by decide)).1 "2024-01-01_00-00-00"
    [⟨["sub", "a.sav"], 100, 0⟩] (by decide)

/-- Sample remote state for the C1 counterexample: Version node 10 holds
the file `b.sav` (50 bytes) directly and the file `a.sav` (100 bytes)
inside its subfolder `sub`. -/
def c1S : MState :=
  ⟨0, 14, [⟨11, 10, "sub", true, 0, 0⟩, ⟨12, 11, "a.sav", false, 0, 100⟩,
    ⟨13, 10, "b.sav", false, 0, 50⟩]⟩

/-- Sample world for the C1 counterexample. -/
def c1W : World := ⟨[("G", [⟨["old"], 7, 0⟩])], [], [], 0, c1S⟩

/-- C1 counterexample: restoring Version node 10 from the remote source
leaves the live folder holding only the top-level file `b.sav`; the
Version's file set also contains `sub/a.sav`, so the live folder's file
set does not equal the Version's. -/
theorem c1_counterexample :
    lookupA (restoreFromMegaById c1W ⟨["G"], ⟨true, true, false, 3⟩⟩
      "G" 10).live "G" = some [⟨["b.sav"], 50, 0⟩] ∧
    subtreeFiles c1S c1S.nodes.length 10 =
      [(["sub", "a.sav"], 100), (["b.sav"], 50)] ∧
    ¬ List.Perm
      ([(⟨["b.sav"], 50, 0⟩ : SFile)].map (fun f => (f.path, f.size)))
      (subtreeFiles c1S c1S.nodes.length 10) := by
  refine ⟨by decide, by decide, by decide⟩

/-!
Remote-store invariants: states only grow by appending fresh nodes, and
a well-formed state has distinct handles all below the counter.
-/

/-- `s'` extends `s` by appending nodes with fresh, distinct handles. -/
def Ext (s s' : MState) : Prop :=
  s'.root = s.root ∧ s.ctr ≤ s'.ctr ∧
    ∃ l, s'.nodes = s.nodes ++ l ∧
      (∀ n ∈ l, s.ctr ≤ n.id ∧ n.id < s'.ctr) ∧
      (l.map (fun n => n.id)).Nodup

/-- Well-formed remote state: distinct handles, all below the counter. -/
def WF (s : MState) : Prop :=
  (s.nodes.map (fun n => n.id)).Nodup ∧ ∀ n ∈ s.nodes, n.id < s.ctr

instance (s : MState) : Decidable (WF s) := by
  unfold WF
  infer_instance

theorem ext_refl (s : MState) : Ext s s :=
  ⟨rfl, le_refl _, [], by simp, by simp, by simp⟩

theorem ext_trans {s1 s2 s3 : MState} (h1 : Ext s1 s2) (h2 : Ext s2 s3) :
    Ext s1 s3 := by
  obtain ⟨r1, c1, l1, n1, b1, d1⟩ := h1
  obtain ⟨r2, c2, l2, n2, b2, d2⟩ := h2
  refine ⟨r2.trans r1, le_trans c1 c2, l1 ++ l2,
    by rw [n2, n1, List.append_assoc], ?_, ?_⟩
  · intro n hn
    rcases List.mem_append.mp hn with h | h
    · exact ⟨(b1 n h).1, lt_of_lt_of_le (b1 n h).2 c2⟩
    · exact ⟨le_trans c1 (b2 n h).1, (b2 n h).2⟩
  · rw [List.map_append]
    refine List.Nodup.append d1 d2 ?_
    intro x hx1 hx2
    obtain ⟨m1, hm1, hmx1⟩ := List.mem_map.mp hx1
    obtain ⟨m2, hm2, hmx2⟩ := List.mem_map.mp hx2
    have := (b1 m1 hm1).2
    have := (b2 m2 hm2).1
    omega

theorem ext_wf {s s' : MState} (h : Ext s s') (hwf : WF s) : WF s' := by
  obtain ⟨hroot, hctr, l, hn, hb, hd⟩ := h
  obtain ⟨hnd, hlt⟩ := hwf
  constructor
  · rw [hn, List.map_append]
    refine List.Nodup.append hnd hd ?_
    intro x hx1 hx2
    obtain ⟨m1, hm1, hmx1⟩ := List.mem_map.mp hx1
    obtain ⟨m2, hm2, hmx2⟩ := List.mem_map.mp hx2
    have := hlt m1 hm1
    have := (hb m2 hm2).1
    omega
  · intro n hn2
    rw [hn] at hn2
    rcases List.mem_append.mp hn2 with h | h
    · exact lt_of_lt_of_le (hlt n h) hctr
    · exact (hb n h).2

/-- An existing lookup survives any append-extension of the store
(`find?` returns the first match, and appended nodes come after it). -/
theorem getChildFolderId_mono {s s' : MState} (h : Ext s s') (p : Nat)
    (name : String) (c : Nat) (hc : getChildFolderId s p name = some c) :
    getChildFolderId s' p name = some c := by
  obtain ⟨hroot, hctr, l, hn, hb, hd⟩ := h
  unfold getChildFolderId getFilesInNode at hc ⊢
  rw [hn, List.filter_append, List.find?_append]
  cases hfind : (s.nodes.filter (fun n => n.parent = p)).find?
      (fun n => n.isFolder && n.name = name) with
  | none => rw [hfind] at hc; simp at hc
  | some n0 =>
    rw [hfind] at hc
    simpa using hc

theorem ecf_of_found {s : MState} {p : Nat} {name : String} {c : Nat}
    (now : Nat) (h : getChildFolderId s p name = some c) :
    ensureChildFolder s p name now = (s, c) := by
  unfold ensureChildFolder
  rw [h]

theorem ecf_lookup (s : MState) (p : Nat) (name : String) (now : Nat) :
    getChildFolderId (ensureChildFolder s p name now).1 p name =
      some (ensureChildFolder s p name now).2 := by
  unfold ensureChildFolder
  cases h : getChildFolderId s p name with
  | some c => simpa using h
  | none =>
    unfold mkdirM
    dsimp only
    unfold getChildFolderId getFilesInNode at h ⊢
    dsimp only
    rw [List.filter_append, List.find?_append]
    have hf : (s.nodes.filter (fun n => n.parent = p)).find?
        (fun n => n.isFolder && n.name = name) = none := by
      cases hx : (s.nodes.filter (fun n => n.parent = p)).find?
          (fun n => n.isFolder && n.name = name) with
      | none => rfl
      | some n0 => rw [hx] at h; simp at h
    rw [hf]
    simp

theorem ecf_ext (s : MState) (p : Nat) (name : String) (now : Nat) :
    Ext s (ensureChildFolder s p name now).1 := by
  unfold ensureChildFolder
  cases h : getChildFolderId s p name with
  | some c => exact ext_refl s
  | none =>
    unfold mkdirM
    dsimp only
    exact ⟨rfl, Nat.le_succ _, [⟨s.ctr, p, name, true, now, 0⟩], rfl,
      by simp, by simp⟩

theorem epGo_ext (now : Nat) (segs : List String) : ∀ (s : MState) (p : Nat),
    Ext s ((segs.foldl
      (fun acc seg => ensureChildFolder acc.1 acc.2 seg now) (s, p)).1) := by
  induction segs with
  | nil => intro s p; exact ext_refl s
  | cons h t ih =>
    intro s p
    rw [List.foldl_cons]
    exact ext_trans (ecf_ext s p h now) (ih _ _)

theorem epGo_idem (now : Nat) (segs : List String) : ∀ (s : MState) (p : Nat),
    segs.foldl (fun acc seg => ensureChildFolder acc.1 acc.2 seg now)
      (((segs.foldl (fun acc seg => ensureChildFolder acc.1 acc.2 seg now)
        (s, p)).1), p) =
      segs.foldl (fun acc seg => ensureChildFolder acc.1 acc.2 seg now)
        (s, p) := by
  induction segs with
  | nil => intro s p; rfl
  | cons h t ih =>
    intro s p
    rw [List.foldl_cons, List.foldl_cons]
    have hlk : getChildFolderId
        ((t.foldl (fun acc seg => ensureChildFolder acc.1 acc.2 seg now)
          (ensureChildFolder s p h now)).1) p h =
        some (ensureChildFolder s p h now).2 := by
      refine getChildFolderId_mono ?_ p h _ (ecf_lookup s p h now)
      exact epGo_ext now t _ _
    rw [ecf_of_found now hlk]
    exact ih (ensureChildFolder s p h now).1 (ensureChildFolder s p h now).2

theorem ecf_len (s : MState) (p : Nat) (name : String) (now : Nat) :
    (ensureChildFolder s p name now).1.nodes.length ≤ s.nodes.length + 1 := by
  unfold ensureChildFolder
  cases h : getChildFolderId s p name with
  | some c => simp
  | none => simp [mkdirM]

theorem epGo_len (now : Nat) (segs : List String) : ∀ (s : MState) (p : Nat),
    ((segs.foldl (fun acc seg => ensureChildFolder acc.1 acc.2 seg now)
      (s, p)).1).nodes.length ≤ s.nodes.length + segs.length := by
  induction segs with
  | nil => intro s p; simp
  | cons h t ih =>
    intro s p
    rw [List.foldl_cons]
    calc ((t.foldl (fun acc seg => ensureChildFolder acc.1 acc.2 seg now)
        (ensureChildFolder s p h now)).1).nodes.length
        ≤ (ensureChildFolder s p h now).1.nodes.length + t.length := ih _ _
      _ ≤ s.nodes.length + 1 + t.length := by
          have := ecf_len s p h now
          omega
      _ = s.nodes.length + (h :: t).length := by simp; omega

/-- C7: the ensure-path logic is idempotent: running it a second time
from the same parent with the same relative path changes nothing and
returns the same node id; together the two calls create at most one
folder node per path segment, and a segment that is missing under its
parent is created by exactly one new node. -/
theorem c7_ensure_path_idempotent (s : MState) (p : Nat) (rel : String)
    (now : Nat) :
    (ensurePath (ensurePath s p rel now).1 p rel now =
      ensurePath s p rel now) ∧
    ((ensurePath s p rel now).1.nodes.length ≤
      s.nodes.length + (cleanSegs rel).length) ∧
    (∀ (s2 : MState) (q : Nat) (nm : String),
      getChildFolderId s2 q nm = none →
      (ensureChildFolder s2 q nm now).1.nodes.length =
        s2.nodes.length + 1) := by
  refine ⟨epGo_idem now (cleanSegs rel) s p, epGo_len now (cleanSegs rel) s p,
    ?_⟩
  intro s2 q nm hnone
  unfold ensureChildFolder
  rw [hnone]
  simp [mkdirM]

theorem c7_ensure_path_idempotent_witness :
    (ensureChildFolder (⟨0, 1, []⟩ : MState) 0 "a" 5).1.nodes.length =
      ([] : List MNode).length + 1 :=
  (c7_ensure_path_idempotent ⟨0, 1, []⟩ 0 "a/b" 5).2.2 ⟨0, 1, []⟩ 0 "a"
    (by decide)


theorem filterComm {α : Type} (p q : α → Bool) (l : List α) :
    (l.filter p).filter q = (l.filter q).filter p := by
  rw [List.filter_filter, List.filter_filter]
  exact List.filter_congr (fun a _ => Bool.and_comm (q a) (p a))

/-- The list-level content of one retention pass: removing the sorted
folder children beyond index `K` keeps exactly the first `K` of the
sorted order under `gid` and leaves every other parent's children
untouched. -/
theorem enforce_core (nodes : List MNode) (gid : Nat) (K : Nat)
    (hids : (nodes.map (fun n => n.id)).Nodup) :
    List.Perm
      (((nodes.filter (fun n =>
          !((((sortNodesByNameDesc ((nodes.filter (fun n => n.parent = gid)).filter
            (fun n => n.isFolder))).drop K).map (fun n => n.id)).contains n.id))).filter
        (fun n => n.parent = gid)).filter (fun n => n.isFolder))
      ((sortNodesByNameDesc ((nodes.filter (fun n => n.parent = gid)).filter
        (fun n => n.isFolder))).take K) ∧
    ∀ p, p ≠ gid →
      (nodes.filter (fun n =>
          !((((sortNodesByNameDesc ((nodes.filter (fun n => n.parent = gid)).filter
            (fun n => n.isFolder))).drop K).map (fun n => n.id)).contains n.id))).filter
        (fun n => n.parent = p) =
      nodes.filter (fun n => n.parent = p) := by
  set F := (nodes.filter (fun n => n.parent = gid)).filter (fun n => n.isFolder)
    with hF
  set srt := sortNodesByNameDesc F with hsrt
  set doomed := (srt.drop K).map (fun n => n.id) with hdoomed
  have hFsub : F.Sublist nodes :=
    (List.filter_sublist _).trans (List.filter_sublist _)
  have hFids : (F.map (fun n => n.id)).Nodup :=
    List.Nodup.sublist (List.Sublist.map _ hFsub) hids
  have hSF : List.Perm srt F := sortLe_perm _ F
  have hSids : (srt.map (fun n => n.id)).Nodup :=
    ((hSF.map (fun n => n.id)).nodup_iff).mpr hFids
  have hdisj : ∀ x ∈ srt.take K, x.id ∉ doomed := by
    intro x hx hmem
    rw [hdoomed] at hmem
    have hnd := hSids
    rw [← List.take_append_drop K srt, List.map_append] at hnd
    have hdj := List.disjoint_of_nodup_append hnd
    exact hdj (List.mem_map_of_mem _ hx) hmem
  have hdparent : ∀ n ∈ nodes, n.id ∈ doomed → n.parent = gid := by
    intro n hn hmem
    rw [hdoomed] at hmem
    obtain ⟨y, hy, hyx⟩ := List.mem_map.mp hmem
    have hyF : y ∈ F := hSF.mem_iff.mp (List.drop_subset _ _ hy)
    have hyn : y ∈ nodes := hFsub.subset hyF
    have hyeq : y = n := List.inj_on_of_nodup_map hids hyn hn hyx
    subst hyeq
    rw [hF] at hyF
    have hm1 := (List.mem_filter.mp hyF).1
    have hm2 := (List.mem_filter.mp hm1).2
    simpa using hm2
  constructor
  · rw [filterComm (fun n : MNode => !(doomed.contains n.id))
      (fun n : MNode => n.parent = gid) nodes,
      filterComm (fun n : MNode => !(doomed.contains n.id))
      (fun n : MNode => n.isFolder) (nodes.filter (fun n => n.parent = gid))]
    have heq : srt.filter (fun n => !(doomed.contains n.id)) = srt.take K := by
      conv_lhs => rw [← List.take_append_drop K srt]
      rw [List.filter_append, List.filter_eq_self.mpr ?_,
        List.filter_eq_nil_iff.mpr ?_, List.append_nil]
      · intro x hx
        have hxd : x.id ∈ doomed := by
          rw [hdoomed]
          exact List.mem_map_of_mem _ hx
        simpa [List.contains] using hxd
      · intro x hx
        have hxd := hdisj x hx
        simpa [List.contains] using hxd
    rw [← heq]
    exact (hSF.symm).filter _
  · intro p hp
    rw [filterComm (fun n : MNode => !(doomed.contains n.id))
      (fun n : MNode => n.parent = p) nodes]
    apply List.filter_eq_self.mpr
    intro n hn
    have hn' := List.mem_filter.mp hn
    have hnot : n.id ∉ doomed := by
      intro hmem
      have hpar : n.parent = p := by simpa using hn'.2
      exact hp (hpar ▸ hdparent n hn'.1 hmem)
    simpa [List.contains] using hnot

/-- C4: pruning the Entry's remote hierarchy with keep-count `K` leaves,
under the Entry's node, exactly the first `K` of the name-descending
Version-folder order (hence `min K total` many folders), and leaves
every other node's children — in particular every other Entry's
hierarchy — and the whole local store and live folders untouched. -/
theorem c4_retention_bound (w : World) (game : String) (K sid gid : Nat)
    (hids : (w.remote.nodes.map (fun n => n.id)).Nodup)
    (h1 : getChildFolderId w.remote w.remote.root "SaveSync" = some sid)
    (h2 : getChildFolderId w.remote sid game = some gid) :
    List.Perm
      ((getFilesInNode (enforceMegaRetention w.remote game K) gid).filter
        (fun n => n.isFolder))
      ((sortNodesByNameDesc ((getFilesInNode w.remote gid).filter
        (fun n => n.isFolder))).take K) ∧
    ((getFilesInNode (enforceMegaRetention w.remote game K) gid).filter
      (fun n => n.isFolder)).length =
      min K ((getFilesInNode w.remote gid).filter
        (fun n => n.isFolder)).length ∧
    (∀ p, p ≠ gid →
      getFilesInNode (enforceMegaRetention w.remote game K) p =
        getFilesInNode w.remote p) ∧
    ({ w with remote := enforceMegaRetention w.remote game K } : World).store
      = w.store ∧
    ({ w with remote := enforceMegaRetention w.remote game K } : World).live
      = w.live := by
  have hcore := enforce_core w.remote.nodes gid K hids
  have hunfold : enforceMegaRetention w.remote game K =
      { w.remote with nodes := w.remote.nodes.filter (fun n =>
        !((((sortNodesByNameDesc ((w.remote.nodes.filter
          (fun n => n.parent = gid)).filter (fun n => n.isFolder))).drop
            K).map (fun n => n.id)).contains n.id)) } := by
    unfold enforceMegaRetention
    rw [h1]
    dsimp only
    rw [h2]
    rfl
  have hperm := hcore.1
  have hslen : (sortNodesByNameDesc ((w.remote.nodes.filter
      (fun n => n.parent = gid)).filter (fun n => n.isFolder))).length =
      ((getFilesInNode w.remote gid).filter (fun n => n.isFolder)).length :=
    (sortLe_perm _ _).length_eq
  refine ⟨?_, ?_, ?_, rfl, rfl⟩
  · rw [hunfold]
    exact hperm
  · rw [hunfold]
    show (((w.remote.nodes.filter (fun n =>
        !((((sortNodesByNameDesc ((w.remote.nodes.filter
          (fun n => n.parent = gid)).filter (fun n => n.isFolder))).drop
            K).map (fun n => n.id)).contains n.id))).filter
        (fun n => n.parent = gid)).filter (fun n => n.isFolder)).length = _
    rw [hperm.length_eq, List.length_take, hslen]
  · intro p hp
    rw [hunfold]
    exact hcore.2 p hp

theorem c4_retention_bound_witness :
    ((getFilesInNode (enforceMegaRetention
      (⟨0, 7, [⟨1, 0, "SaveSync", true, 0, 0⟩, ⟨2, 1, "G", true, 0, 0⟩,
        ⟨3, 2, "2024-01-01_00-00-00", true, 1, 0⟩,
        ⟨4, 2, "2024-01-02_00-00-00", true, 2, 0⟩,
        ⟨5, 2, "2024-01-03_00-00-00", true, 3, 0⟩]⟩ : MState) "G" 2) 2).filter
      (fun n => n.isFolder)).length = min 2 3 :=
  (c4_retention_bound
    ⟨[], [], [], 0, ⟨0, 7, [⟨1, 0, "SaveSync", true, 0, 0⟩,
      ⟨2, 1, "G", true, 0, 0⟩, ⟨3, 2, "2024-01-01_00-00-00", true, 1, 0⟩,
      ⟨4, 2, "2024-01-02_00-00-00", true, 2, 0⟩,
      ⟨5, 2, "2024-01-03_00-00-00", true, 3, 0⟩]⟩⟩
    "G" 2 1 2 (by decide) (by decide) (by decide)).2.1

theorem mkdir_ext (s : MState) (p : Nat) (name : String) (now : Nat) :
    Ext s (mkdirM s p name now).1 := by
  unfold mkdirM
  exact ⟨rfl, Nat.le_succ _, [⟨s.ctr, p, name, true, now, 0⟩], rfl, by simp,
    by simp⟩

theorem fileFold_ext (files : List (String × Nat)) (target now : Nat) :
    ∀ s : MState,
    Ext s (files.foldl (fun s2 f =>
      { s2 with nodes := s2.nodes ++ [⟨s2.ctr, target, f.1, false, now, f.2⟩], ctr := s2.ctr + 1 }) s) := by
  induction files with
  | nil => intro s; exact ext_refl s
  | cons f fs ih =>
    intro s
    rw [List.foldl_cons]
    refine ext_trans ?_ (ih _)
    exact ⟨rfl, Nat.le_succ _, [⟨s.ctr, target, f.1, false, now, f.2⟩], rfl,
      by simp, by simp⟩

theorem uploadDir_ext (tsId now : Nat) (d : String × List (String × Nat))
    (s : MState) : Ext s (uploadDir tsId now s d) := by
  unfold uploadDir
  by_cases hd : d.1 = "."
  · rw [if_pos hd]
    exact fileFold_ext d.2 tsId now s
  · rw [if_neg hd]
    exact ext_trans (epGo_ext now (cleanSegs d.1) s tsId)
      (fileFold_ext d.2 (ensurePath s tsId d.1 now).2 now
        (ensurePath s tsId d.1 now).1)

theorem dirsFold_ext (tsId now : Nat)
    (dirs : List (String × List (String × Nat))) :
    ∀ s : MState, Ext s (dirs.foldl (uploadDir tsId now) s) := by
  induction dirs with
  | nil => intro s; exact ext_refl s
  | cons d ds ih =>
    intro s
    rw [List.foldl_cons]
    exact ext_trans (uploadDir_ext tsId now d s) (ih _)

theorem uploadMaterialize_ext (s : MState) (gid : Nat) (game ts : String)
    (now : Nat) (dirs : List (String × List (String × Nat))) :
    Ext s (uploadMaterialize s gid game ts now dirs).1 := by
  unfold uploadMaterialize
  cases h : findPathDescriptor s ["SaveSync", game, ts] with
  | some t => exact dirsFold_ext t now dirs s
  | none =>
    dsimp only
    cases h2 : findPathDescriptor (mkdirM s gid ts now).1
        ["SaveSync", game, ts] with
    | some t =>
      exact ext_trans (mkdir_ext s gid ts now) (dirsFold_ext t now dirs _)
    | none => exact mkdir_ext s gid ts now

/-- The retention count bound, at the store level. -/
theorem enforce_len (s2 : MState) (game : String) (K sid gid : Nat)
    (hids : (s2.nodes.map (fun n => n.id)).Nodup)
    (h1 : getChildFolderId s2 s2.root "SaveSync" = some sid)
    (h2 : getChildFolderId s2 sid game = some gid) :
    ((getFilesInNode (enforceMegaRetention s2 game K) gid).filter
      (fun n => n.isFolder)).length =
      min K ((getFilesInNode s2 gid).filter (fun n => n.isFolder)).length := by
  have hcore := enforce_core s2.nodes gid K hids
  have hunfold : enforceMegaRetention s2 game K =
      { s2 with nodes := s2.nodes.filter (fun n =>
        !((((sortNodesByNameDesc ((s2.nodes.filter
          (fun n => n.parent = gid)).filter (fun n => n.isFolder))).drop
            K).map (fun n => n.id)).contains n.id)) } := by
    unfold enforceMegaRetention
    rw [h1]
    dsimp only
    rw [h2]
    rfl
  have hslen : (sortNodesByNameDesc ((s2.nodes.filter
      (fun n => n.parent = gid)).filter (fun n => n.isFolder))).length =
      ((getFilesInNode s2 gid).filter (fun n => n.isFolder)).length :=
    (sortLe_perm _ _).length_eq
  rw [hunfold]
  show (((s2.nodes.filter (fun n =>
      !((((sortNodesByNameDesc ((s2.nodes.filter
        (fun n => n.parent = gid)).filter (fun n => n.isFolder))).drop
          K).map (fun n => n.id)).contains n.id))).filter
      (fun n => n.parent = gid)).filter (fun n => n.isFolder)).length = _
  rw [hcore.1.length_eq, List.length_take, hslen]

/-- C5 (amended): the keep-count applied by the pruning step after a
successful upload is the literal constant 3 from the call site: for
every well-formed remote state the upload leaves `min 3 total` Version
folders under the Entry's node, whatever `keepCount` the configuration
settings record holds (the program never reads one). -/
theorem c5_upload_hardcoded_keep (s : MState) (game ts : String)
    (now : Nat) (dirs : List (String × List (String × Nat)))
    (hwf : WF s)
    (hts : (uploadMaterialize (uploadEnsureGame s game now).1
      (uploadEnsureGame s game now).2 game ts now dirs).2.isSome = true) :
    ((getFilesInNode (uploadToMega s game ts now dirs)
        (uploadEnsureGame s game now).2).filter (fun n => n.isFolder)).length
      = min 3 ((getFilesInNode
        (uploadMaterialize (uploadEnsureGame s game now).1
          (uploadEnsureGame s game now).2 game ts now dirs).1
        (uploadEnsureGame s game now).2).filter (fun n => n.isFolder)).length := by
  set r1 := ensureChildFolder s s.root "SaveSync" now with hr1
  set g := uploadEnsureGame s game now with hg
  have hgdef : g = ensureChildFolder r1.1 r1.2 game now := rfl
  set mz := uploadMaterialize g.1 g.2 game ts now dirs with hmz
  have hE1 : Ext s r1.1 := ecf_ext s s.root "SaveSync" now
  have hE2 : Ext r1.1 g.1 := by rw [hgdef]; exact ecf_ext r1.1 r1.2 game now
  have hE3 : Ext g.1 mz.1 := uploadMaterialize_ext g.1 g.2 game ts now dirs
  have hEs3 : Ext s mz.1 := ext_trans hE1 (ext_trans hE2 hE3)
  have hlk1 : getChildFolderId mz.1 s.root "SaveSync" = some r1.2 := by
    refine getChildFolderId_mono (ext_trans hE2 hE3) _ _ _ ?_
    exact ecf_lookup s s.root "SaveSync" now
  have hlk2 : getChildFolderId mz.1 r1.2 game = some g.2 := by
    refine getChildFolderId_mono hE3 _ _ _ ?_
    rw [hgdef]
    exact ecf_lookup r1.1 r1.2 game now
  have hroot : mz.1.root = s.root := by
    obtain ⟨hr, _⟩ := hEs3
    exact hr
  have hwf' : WF mz.1 := ext_wf hEs3 hwf
  obtain ⟨t, htm⟩ := Option.isSome_iff_exists.mp hts
  have hun : uploadToMega s game ts now dirs =
      enforceMegaRetention mz.1 game 3 := by
    show (match mz.2 with
      | some _ => enforceMegaRetention mz.1 game 3
      | none =>
        if dirs.all (fun d => d.1 = "." && d.2.isEmpty) then
          enforceMegaRetention mz.1 game 3
        else mz.1) = enforceMegaRetention mz.1 game 3
    rw [htm]
  rw [hun]
  exact enforce_len mz.1 game 3 r1.2 g.2 hwf'.1
    (by rw [hroot]; exact hlk1) hlk2

/-- Sample remote state for C5: `SaveSync/G` with four Version folders,
fresh-handle counter 7. -/
def c5S : MState :=
  ⟨0, 7, [⟨1, 0, "SaveSync", true, 0, 0⟩, ⟨2, 1, "G", true, 0, 0⟩,
    ⟨3, 2, "2024-01-01_00-00-00", true, 1, 0⟩,
    ⟨4, 2, "2024-01-02_00-00-00", true, 2, 0⟩,
    ⟨5, 2, "2024-01-03_00-00-00", true, 3, 0⟩,
    ⟨6, 2, "2024-01-04_00-00-00", true, 4, 0⟩]⟩

theorem c5_upload_hardcoded_keep_witness :
    ((getFilesInNode (uploadToMega c5S "G" "2024-01-05_00-00-00" 500
        [(".", [])]) (uploadEnsureGame c5S "G" 500).2).filter
      (fun n => n.isFolder)).length
      = min 3 ((getFilesInNode
        (uploadMaterialize (uploadEnsureGame c5S "G" 500).1
          (uploadEnsureGame c5S "G" 500).2 "G" "2024-01-05_00-00-00" 500
          [(".", [])]).1
        (uploadEnsureGame c5S "G" 500).2).filter (fun n => n.isFolder)).length :=
  c5_upload_hardcoded_keep c5S "G" "2024-01-05_00-00-00" 500 [(".", [])]
    (by decide) (by decide)

/-- C5 counterexample: with a configuration whose settings record holds
`keepCount = 5` and five Version folders materialized after the upload,
the pruning step still leaves 3 — not `min keepCount total = 5` — so
the applied keep-count is not the configured `keepCount`. -/
theorem c5_counterexample :
    ((getFilesInNode (uploadToMega c5S "G" "2024-01-05_00-00-00" 500
        [(".", [])]) 2).filter (fun n => n.isFolder)).length = 3 ∧
    (⟨["G"], ⟨true, true, false, 5⟩⟩ : Config).settings.keepCount = 5 ∧
    ((getFilesInNode c5S 2).filter (fun n => n.isFolder)).length + 1 = 5 ∧
    (3 : Nat) ≠ min 5 5 := by
  refine ⟨by decide, rfl, by decide, by decide⟩

/-- C6 (amended): the local restore selector enumerates Versions in
descending code-point order of their names — the same rule the
retention enforcer uses — and on timestamp-formatted names this
descending name order is exactly chronological descending order; the
remote restore selector instead enumerates the Entry's Version folders
by the node creation-time attribute `ts`, descending. -/
theorem c6_selector_ordering :
    (∀ l : List String,
      (sortDescStr l).Pairwise (fun a b => strLeb b a = true) ∧
      List.Perm (sortDescStr l) l) ∧
    (∀ t1 t2 : Ts, t1.Valid → t2.Valid →
      (strLtb (fmtTs t1) (fmtTs t2) = true ↔ chronoLt t1 t2)) ∧
    (∀ (s : MState) (game : String),
      (megaGetBackupsNodes s game).Pairwise (fun a b => b.ts ≤ a.ts) ∧
      ∀ gid, findPathDescriptor s ["SaveSync", game] = some gid →
        List.Perm (megaGetBackupsNodes s game)
          ((getFilesInNode s gid).filter (fun n => n.isFolder))) := by
  refine ⟨fun l => ⟨sortDescStr_sorted l, sortDescStr_perm l⟩,
    fun t1 t2 h1 h2 => fmtTs_lt_iff h1 h2, ?_⟩
  intro s game
  unfold megaGetBackupsNodes
  cases h : findPathDescriptor s ["SaveSync", game] with
  | none =>
    refine ⟨List.Pairwise.nil, ?_⟩
    intro gid hgid
    exact absurd hgid (by simp)
  | some gid =>
    constructor
    · have hp := sortLe_pairwise (fun a b : MNode => decide (b.ts ≤ a.ts))
        (fun a b c hab hbc => by
          simp only [decide_eq_true_eq] at hab hbc ⊢
          omega)
        (fun a b => by
          rcases Nat.le_total b.ts a.ts with h1 | h1
          · exact Or.inl (by simpa using h1)
          · exact Or.inr (by simpa using h1))
        ((getFilesInNode s gid).filter (fun n => n.isFolder))
      exact hp.imp (fun h2 => by simpa using h2)
    · intro gid2 hgid2
      have : gid2 = gid := (Option.some_inj.mp hgid2).symm
      subst this
      exact sortLe_perm _ _

theorem c6_selector_ordering_witness :
    strLtb (fmtTs ⟨2024, 1, 1, 0, 0, 0⟩) (fmtTs ⟨2024, 1, 2, 0, 0, 0⟩) =
      true :=
  (c6_selector_ordering.2.1 ⟨2024, 1, 1, 0, 0, 0⟩ ⟨2024, 1, 2, 0, 0, 0⟩
    (by decide) (by decide)).mpr (by decide)

/-- Sample remote state for the C6 counterexample: the Version folder
named `2024-01-02_00-00-00` has node creation time 100, while the one
named `2024-01-01_00-00-00` was uploaded later (creation time 200). -/
def c6S : MState :=
  ⟨0, 5, [⟨1, 0, "SaveSync", true, 0, 0⟩, ⟨2, 1, "G", true, 0, 0⟩,
    ⟨3, 2, "2024-01-02_00-00-00", true, 100, 0⟩,
    ⟨4, 2, "2024-01-01_00-00-00", true, 200, 0⟩]⟩

/-- C6 counterexample: the remote selector enumerates the
lexicographically smaller (older) name first, because it sorts by the
node creation-time attribute, not by name — so its order is not the
descending name order the pruning step uses. -/
theorem c6_counterexample :
    megaGetBackups c6S "G" =
      [("2024-01-01_00-00-00", 4), ("2024-01-02_00-00-00", 3)] ∧
    strLtb "2024-01-01_00-00-00" "2024-01-02_00-00-00" = true := by
  refine ⟨by decide, by decide⟩
